import Mathlib

/-!
Verification of the TrinaryVM open-core-cli codecs and gas estimator.

The definitions below are shallow embeddings of the Rust source:
* `src/cli/src/tetragram_commands.rs` — the Universal (base-81) codec and the
  Direct Trit codec.  Characters are modelled as their Unicode code points
  (`Nat`), byte sequences as `List Nat` whose members are below 256, and the
  arbitrary-precision `BigUint` arithmetic as plain `Nat` arithmetic.
* `src/cli/src/commands/gas_estimate.rs` — the gas estimator.  The functions
  it calls in the external `trinaryvm_runtime` crate (opcode table, cost
  functions, tier table) are not part of this repository; following the
  specification they are modelled as an explicit record of pure functions.

`while` loops of the source that repeatedly divide a number are translated
with an explicit fuel argument equal to the starting value; since each
iteration divides the value by a base ≥ 3, that fuel provably suffices, and
the translation stays executable by kernel reduction.
-/

set_option maxHeartbeats 1000000

/-- First code point of the 81-glyph tetragram alphabet (U+1D306), from
`const GLYPH_BASE: u32 = 0x1D306` in the source. -/
def GLYPH_BASE : Nat := 0x1D306

/-- Rust `char::is_whitespace`: the Unicode `White_Space` property, on code
points.  Used by `decode_tetragrams_to_bytes` to drop whitespace before
validation. -/
def isWhitespace (c : Nat) : Bool :=
  (0x09 ≤ c && c ≤ 0x0D) || c = 0x20 || c = 0x85 || c = 0xA0 || c = 0x1680 ||
  (0x2000 ≤ c && c ≤ 0x200A) || c = 0x2028 || c = 0x2029 || c = 0x202F ||
  c = 0x205F || c = 0x3000

/-- The accumulation loop of `encode_universal_to_tetragrams`:
`for (i, byte) in input.iter().enumerate() { big_number += byte * 256^i }`. -/
def bytesToNat (input : List Nat) : Nat :=
  (input.enum.map (fun p => p.2 * 256 ^ p.1)).sum

/-- The accumulation loop of `decode_tetragrams_to_bytes`:
`for (i, digit) in digits.iter().enumerate() { big_number += digit * 81^i }`. -/
def digitsToNat (digits : List Nat) : Nat :=
  (digits.enum.map (fun p => p.2 * 81 ^ p.1)).sum

/-- Fuelled translation of the repeated-division loop
`while !value.is_zero() { (q, r) = value.div_rem(base); digits.push(r); value = q }`.
The fuel bounds the number of iterations; `toBaseAux_eq_digits` shows that
fuel `n` reaches the fixpoint for any base ≥ 2. -/
def toBaseAux (base : Nat) : Nat → Nat → List Nat
  | 0, _ => []
  | fuel + 1, n => if n = 0 then [] else n % base :: toBaseAux base fuel (n / base)

/-- The base-81 digit loop of `encode_universal_to_tetragrams`. -/
def natToBase81 (n : Nat) : List Nat := toBaseAux 81 n n

/-- The base-256 byte loop of `decode_tetragrams_to_bytes`. -/
def natToBase256 (n : Nat) : List Nat := toBaseAux 256 n n

/-- `encode_universal_to_tetragrams` before the Tesla padding loop: interpret
the bytes as a little-endian base-256 number, take its base-81 digits (at
least one digit, `digits.push(0)` when empty), and map each digit to its
glyph `GLYPH_BASE + digit`. -/
def encode_core (input : List Nat) : List Nat :=
  let digits := natToBase81 (bytesToNat input)
  let digits := if digits = [] then [0] else digits
  digits.map (fun d => GLYPH_BASE + d)

/-- `encode_universal_to_tetragrams` (tetragram_commands.rs:860-920), as the
produced glyph stream: the core digits followed by the padding loop
`while tetragrams.len() % 9 != 0 { tetragrams.push(GLYPH_BASE) }`. -/
def encode_universal_to_tetragrams (input : List Nat) : List Nat :=
  let tets := encode_core input
  tets ++ List.replicate ((9 - tets.length % 9) % 9) GLYPH_BASE

/-- The two failure cases of `decode_tetragrams_to_bytes`: an empty glyph
list after whitespace removal, and a character outside the 81-glyph range.
The source formats the invalid character and its code point into the error
message; the error value is that code point. -/
inductive DecodeError where
  | emptyInput : DecodeError
  | invalidSymbol (code : Nat) : DecodeError
deriving DecidableEq

/-- The range test of the validation loop in `decode_tetragrams_to_bytes`:
`code < GLYPH_BASE || code > GLYPH_BASE + 80`. -/
def outOfRange (c : Nat) : Bool := c < GLYPH_BASE || GLYPH_BASE + 80 < c

/-- The validation loop of `decode_tetragrams_to_bytes`: walk the glyphs in
order, fail on the first character outside `[GLYPH_BASE, GLYPH_BASE+80]`,
otherwise collect `code - GLYPH_BASE` as a digit. -/
def readDigits : List Nat → Except DecodeError (List Nat)
  | [] => .ok []
  | c :: rest =>
    if outOfRange c then
      .error (.invalidSymbol c)
    else
      match readDigits rest with
      | .error e => .error e
      | .ok ds => .ok ((c - GLYPH_BASE) :: ds)

/-- `decode_tetragrams_to_bytes` (tetragram_commands.rs:923-966): filter out
whitespace, fail on empty, validate and collect base-81 digits, rebuild the
number, and re-express it as little-endian base-256 bytes. -/
def decode_tetragrams_to_bytes (input : List Nat) : Except DecodeError (List Nat) :=
  let glyphs := input.filter (fun c => !(isWhitespace c))
  if glyphs.isEmpty then .error .emptyInput
  else
    match readDigits glyphs with
    | .error e => .error e
    | .ok digits => .ok (natToBase256 (digitsToNat digits))

/-! ### Base-conversion lemmas -/

theorem toBaseAux_eq_digits (base : Nat) (hb : 2 ≤ base) :
    ∀ (fuel n : Nat), n ≤ fuel → toBaseAux base fuel n = Nat.digits base n := by
  intro fuel
  induction fuel with
  | zero =>
    intro n hn
    interval_cases n
    simp [toBaseAux]
  | succ f ih =>
    intro n hn
    by_cases h0 : n = 0
    · subst h0; simp [toBaseAux]
    · rw [toBaseAux, if_neg h0,
        Nat.digits_def' (by omega : 1 < base) (Nat.pos_of_ne_zero h0),
        ih (n / base) (by
          have := Nat.div_lt_self (Nat.pos_of_ne_zero h0) (by omega : 1 < base)
          omega)]

theorem natToBase81_eq (n : Nat) : natToBase81 n = Nat.digits 81 n :=
  toBaseAux_eq_digits 81 (by norm_num) n n le_rfl

theorem natToBase256_eq (n : Nat) : natToBase256 n = Nat.digits 256 n :=
  toBaseAux_eq_digits 256 (by norm_num) n n le_rfl

theorem enumFrom_base_sum (b : Nat) :
    ∀ (l : List Nat) (k : Nat),
      ((l.enumFrom k).map (fun p => p.2 * b ^ p.1)).sum = b ^ k * Nat.ofDigits b l := by
  intro l
  induction l with
  | nil => intro k; simp [Nat.ofDigits_nil]
  | cons d t ih =>
    intro k
    simp only [List.enumFrom, List.map_cons, List.sum_cons, ih (k + 1),
      Nat.ofDigits_cons]
    ring

theorem bytesToNat_eq (l : List Nat) : bytesToNat l = Nat.ofDigits 256 l := by
  have := enumFrom_base_sum 256 l 0
  simpa [bytesToNat, List.enum] using this

theorem digitsToNat_eq (l : List Nat) : digitsToNat l = Nat.ofDigits 81 l := by
  have := enumFrom_base_sum 81 l 0
  simpa [digitsToNat, List.enum] using this

theorem ofDigits_replicate_zero (b k : Nat) :
    Nat.ofDigits b (List.replicate k 0) = 0 := by
  induction k with
  | zero => simp [Nat.ofDigits_nil]
  | succ m ih => simp [List.replicate, Nat.ofDigits_cons, ih]

theorem isWhitespace_glyph (c : Nat) (h : GLYPH_BASE ≤ c) : isWhitespace c = false := by
  simp only [isWhitespace, GLYPH_BASE] at *
  simp only [Bool.or_eq_false_iff, Bool.and_eq_false_iff, decide_eq_false_iff_not]
  omega

/-! ### Facts about the encoded glyph stream -/

theorem encode_core_mem (input : List Nat) :
    ∀ c ∈ encode_core input, GLYPH_BASE ≤ c ∧ c ≤ GLYPH_BASE + 80 := by
  intro c hc
  simp only [encode_core, List.mem_map] at hc
  obtain ⟨d, hd, rfl⟩ := hc
  refine ⟨Nat.le_add_right _ _, ?_⟩
  by_cases h : natToBase81 (bytesToNat input) = []
  · rw [if_pos h] at hd
    simp only [List.mem_singleton] at hd
    omega
  · rw [if_neg h, natToBase81_eq] at hd
    have := Nat.digits_lt_base (by norm_num : 1 < 81) hd
    omega

theorem encode_mem (input : List Nat) :
    ∀ c ∈ encode_universal_to_tetragrams input, GLYPH_BASE ≤ c ∧ c ≤ GLYPH_BASE + 80 := by
  intro c hc
  simp only [encode_universal_to_tetragrams, List.mem_append] at hc
  rcases hc with hc | hc
  · exact encode_core_mem input c hc
  · have := List.eq_of_mem_replicate hc
    subst this
    exact ⟨le_rfl, Nat.le_add_right _ _⟩

theorem encode_core_ne_nil (input : List Nat) : encode_core input ≠ [] := by
  by_cases h : natToBase81 (bytesToNat input) = [] <;>
    simp [encode_core, h]

theorem encode_ne_nil (input : List Nat) : encode_universal_to_tetragrams input ≠ [] := by
  simp only [encode_universal_to_tetragrams]
  intro h
  rcases List.append_eq_nil.mp h with ⟨h1, _⟩
  exact encode_core_ne_nil input h1

theorem readDigits_ok (l : List Nat)
    (h : ∀ c ∈ l, GLYPH_BASE ≤ c ∧ c ≤ GLYPH_BASE + 80) :
    readDigits l = .ok (l.map (fun c => c - GLYPH_BASE)) := by
  induction l with
  | nil => rfl
  | cons c rest ih =>
    have hc := h c (List.mem_cons_self c rest)
    rw [readDigits,
      if_neg (by simp only [outOfRange, Bool.or_eq_true, decide_eq_true_eq, not_or]; omega),
      ih (fun x hx => h x (List.mem_cons_of_mem c hx))]
    rfl

theorem decode_ok_of_valid (l : List Nat) (hne : l ≠ [])
    (h : ∀ c ∈ l, GLYPH_BASE ≤ c ∧ c ≤ GLYPH_BASE + 80) :
    decode_tetragrams_to_bytes l =
      .ok (natToBase256 (digitsToNat (l.map (fun c => c - GLYPH_BASE)))) := by
  have hfilter : l.filter (fun c => !(isWhitespace c)) = l :=
    List.filter_eq_self.mpr
      (fun c hc => by rw [isWhitespace_glyph c (h c hc).1]; rfl)
  simp only [decode_tetragrams_to_bytes, hfilter,
    List.isEmpty_eq_false.mpr hne, Bool.false_eq_true, if_false,
    readDigits_ok l h]

instance {ε α : Type} [DecidableEq ε] [DecidableEq α] : DecidableEq (Except ε α) := fun a b =>
  match a, b with
  | .ok x, .ok y => if h : x = y then .isTrue (by rw [h]) else .isFalse (by simp [h])
  | .error x, .error y => if h : x = y then .isTrue (by rw [h]) else .isFalse (by simp [h])
  | .ok _, .error _ => .isFalse (by simp)
  | .error _, .ok _ => .isFalse (by simp)

theorem map_sub_map_add (D : List Nat) :
    (D.map (fun d => GLYPH_BASE + d)).map (fun c => c - GLYPH_BASE) = D := by
  induction D with
  | nil => rfl
  | cons d t ih => simp only [List.map_cons, ih, Nat.add_sub_cancel_left]

/-- C1: for every non-empty byte sequence whose final (most-significant) byte
is non-zero, decoding the universal encoding reproduces the bytes exactly:
`decode_tetragrams_to_bytes (encode_universal_to_tetragrams b) = ok b`. -/
theorem universal_roundtrip (b : List Nat) (hne : b ≠ [])
    (hbytes : ∀ x ∈ b, x < 256) (hlast : b.getLast? ≠ some 0) :
    decode_tetragrams_to_bytes (encode_universal_to_tetragrams b) = .ok b := by
  have hlast' : ∀ h : b ≠ [], b.getLast h ≠ 0 := fun h hz =>
    hlast (by rw [List.getLast?_eq_getLast b h, hz])
  have hdig : Nat.digits 256 (Nat.ofDigits 256 b) = b :=
    Nat.digits_ofDigits 256 (by norm_num) b hbytes hlast'
  have hN0 : bytesToNat b ≠ 0 := by
    rw [bytesToNat_eq]
    intro h
    rw [h, Nat.digits_zero] at hdig
    exact hne hdig.symm
  have h81 : natToBase81 (bytesToNat b) ≠ [] := by
    rw [natToBase81_eq]
    exact Nat.digits_ne_nil_iff_ne_zero.mpr hN0
  have hcore : encode_core b = (natToBase81 (bytesToNat b)).map (fun d => GLYPH_BASE + d) := by
    simp only [encode_core, if_neg h81]
  have hmap : (encode_universal_to_tetragrams b).map (fun c => c - GLYPH_BASE) =
      natToBase81 (bytesToNat b) ++
        List.replicate ((9 - (encode_core b).length % 9) % 9) 0 := by
    simp only [encode_universal_to_tetragrams, List.map_append, List.map_replicate,
      Nat.sub_self]
    rw [hcore, map_sub_map_add]
  rw [decode_ok_of_valid _ (encode_ne_nil b) (encode_mem b), hmap, digitsToNat_eq,
    Nat.ofDigits_append, ofDigits_replicate_zero, natToBase81_eq, Nat.ofDigits_digits,
    mul_zero, add_zero, natToBase256_eq, bytesToNat_eq, hdig]

/-- Witness for `universal_roundtrip` at the byte sequence `[1]`. -/
theorem universal_roundtrip_witness :
    ([1] : List Nat) ≠ [] ∧ (∀ x ∈ ([1] : List Nat), x < 256) ∧
      ([1] : List Nat).getLast? ≠ some 0 ∧
      decode_tetragrams_to_bytes (encode_universal_to_tetragrams [1]) = .ok [1] :=
  ⟨by decide, by decide, by decide,
    universal_roundtrip [1] (by decide) (by decide) (by decide)⟩

/-- C3: for every byte sequence (empty included) the universal encoder
produces a non-empty stream whose length is a multiple of 9; the stream is
the unpadded core followed by padding symbols that all map to digit 0
(they are literally `GLYPH_BASE`), and the padded stream represents the same
integer as the unpadded core. -/
theorem encode_universal_alignment (b : List Nat) :
    encode_universal_to_tetragrams b ≠ [] ∧
    (encode_universal_to_tetragrams b).length % 9 = 0 ∧
    encode_universal_to_tetragrams b =
      encode_core b ++
        List.replicate ((9 - (encode_core b).length % 9) % 9) GLYPH_BASE ∧
    digitsToNat ((encode_universal_to_tetragrams b).map (fun c => c - GLYPH_BASE)) =
      digitsToNat ((encode_core b).map (fun c => c - GLYPH_BASE)) := by
  refine ⟨encode_ne_nil b, ?_, rfl, ?_⟩
  · simp only [encode_universal_to_tetragrams, List.length_append, List.length_replicate]
    omega
  · simp only [encode_universal_to_tetragrams, List.map_append, List.map_replicate,
      digitsToNat_eq, Nat.ofDigits_append, Nat.sub_self, ofDigits_replicate_zero,
      mul_zero, add_zero]

/-- C7: encoding the empty byte sequence yields exactly 9 symbols, all equal
to `GLYPH_BASE` (digit 0); decoding that stream succeeds with the empty byte
sequence, whose integer value is zero. -/
theorem encode_universal_empty :
    encode_universal_to_tetragrams [] = List.replicate 9 GLYPH_BASE ∧
    decode_tetragrams_to_bytes (encode_universal_to_tetragrams []) = .ok [] ∧
    bytesToNat [] = 0 := by
  refine ⟨?_, ?_, rfl⟩ <;> decide

/-! ### Invalid-symbol behaviour of the universal decoder -/

theorem readDigits_err : ∀ l : List Nat,
    (∃ c ∈ l, outOfRange c = true) →
    readDigits l = .error (.invalidSymbol ((l.find? outOfRange).getD 0)) := by
  intro l
  induction l with
  | nil => rintro ⟨c, hc, -⟩; exact absurd hc (List.not_mem_nil c)
  | cons c rest ih =>
    rintro ⟨d, hd, hdo⟩
    by_cases hc : outOfRange c = true
    · rw [readDigits, if_pos hc, List.find?_cons_of_pos _ hc]
      rfl
    · have hdrest : d ∈ rest := by
        rcases List.mem_cons.mp hd with rfl | h
        · exact absurd hdo hc
        · exact h
      rw [readDigits, if_neg hc, ih ⟨d, hdrest, hdo⟩,
        List.find?_cons_of_neg _ hc]

theorem readDigits_invalid_mem : ∀ (l : List Nat) (v : Nat),
    readDigits l = .error (.invalidSymbol v) → v ∈ l := by
  intro l
  induction l with
  | nil => intro v h; exact absurd h (by rw [readDigits]; simp)
  | cons c rest ih =>
    intro v h
    rw [readDigits] at h
    split at h
    · rw [Except.error.injEq, DecodeError.invalidSymbol.injEq] at h
      exact h ▸ List.mem_cons_self c rest
    · split at h
      · next e heq =>
          rw [Except.error.injEq] at h
          exact List.mem_cons_of_mem c (ih v (h ▸ heq))
      · exact absurd h (by simp)

/-- C4 (amended): whenever the whitespace-filtered stream contains a symbol
outside the 81-glyph range, decoding fails with `InvalidSymbol` carrying the
value (code point) of the first such symbol; the error does not carry the
symbol's position. -/
theorem decode_invalid_symbol (input : List Nat)
    (h : ∃ c ∈ input.filter (fun c => !(isWhitespace c)), outOfRange c = true) :
    decode_tetragrams_to_bytes input =
      .error (.invalidSymbol
        (((input.filter (fun c => !(isWhitespace c))).find? outOfRange).getD 0)) := by
  obtain ⟨c, hc, hco⟩ := h
  have hne : input.filter (fun c => !(isWhitespace c)) ≠ [] :=
    List.ne_nil_of_mem hc
  simp only [decode_tetragrams_to_bytes, List.isEmpty_eq_false.mpr hne,
    Bool.false_eq_true, if_false, readDigits_err _ ⟨c, hc, hco⟩]

/-- Witness for `decode_invalid_symbol` at the one-character stream `[65]`. -/
theorem decode_invalid_symbol_witness :
    (∃ c ∈ ([65] : List Nat).filter (fun c => !(isWhitespace c)), outOfRange c = true) ∧
    decode_tetragrams_to_bytes [65] =
      .error (.invalidSymbol
        (((([65] : List Nat).filter (fun c => !(isWhitespace c))).find? outOfRange).getD 0)) :=
  ⟨⟨65, by decide, by decide⟩, decode_invalid_symbol [65] ⟨65, by decide, by decide⟩⟩

/-- C4 counterexample: the same invalid symbol at position 0 and at
position 1 produces the very same error value, so the `InvalidSymbol`
error cannot identify the offending position. -/
theorem decode_invalid_symbol_no_position :
    decode_tetragrams_to_bytes [65] = .error (.invalidSymbol 65) ∧
    decode_tetragrams_to_bytes [GLYPH_BASE, 65] = .error (.invalidSymbol 65) := by
  exact ⟨by decide, by decide⟩

theorem filter_ws_idem (l : List Nat) :
    (l.filter (fun c => !(isWhitespace c))).filter (fun c => !(isWhitespace c)) =
      l.filter (fun c => !(isWhitespace c)) :=
  List.filter_eq_self.mpr (fun _ ha => (List.mem_filter.mp ha).2)

/-- C10: the universal decoder is whitespace-insensitive — decoding any
stream gives exactly the same result (value or error) as decoding the same
stream with all whitespace removed, and a whitespace character is never the
symbol reported by an `InvalidSymbol` error. -/
theorem decode_whitespace_insensitive (input : List Nat) :
    decode_tetragrams_to_bytes input =
      decode_tetragrams_to_bytes (input.filter (fun c => !(isWhitespace c))) ∧
    ∀ v, decode_tetragrams_to_bytes input = .error (.invalidSymbol v) →
      isWhitespace v = false := by
  constructor
  · simp only [decode_tetragrams_to_bytes, filter_ws_idem]
  · intro v hv
    simp only [decode_tetragrams_to_bytes] at hv
    split at hv
    · exact absurd hv (by simp)
    · split at hv
      · next e heq =>
          rw [Except.error.injEq] at hv
          have hvmem := readDigits_invalid_mem _ v (hv ▸ heq)
          have := (List.mem_filter.mp hvmem).2
          rwa [Bool.not_eq_eq_eq_not, Bool.not_true] at this
      · exact absurd hv (by simp)

/-- Witness for `decode_whitespace_insensitive` on a stream holding a space
followed by an invalid character. -/
theorem decode_whitespace_insensitive_witness :
    decode_tetragrams_to_bytes [32, 65] =
      decode_tetragrams_to_bytes (([32, 65] : List Nat).filter (fun c => !(isWhitespace c))) ∧
    isWhitespace 65 = false :=
  ⟨(decode_whitespace_insensitive [32, 65]).1,
    (decode_whitespace_insensitive [32, 65]).2 65 (by decide)⟩

/-! ### Direct trit codec (tetragram_commands.rs:1016-1155) -/

/-- The remainder-to-trit mapping of `text_to_trits`:
`0 => 0, 1 => 1, 2 => -1` (the remainder of a division by 3 is never
anything else). -/
def tritOfRem (r : Nat) : Int := if r = 0 then 0 else if r = 1 then 1 else -1

/-- Fuelled translation of the per-byte loop of `text_to_trits`:
`while value > 0 { trits.push(trit(value % 3)); value = value / 3 }`. -/
def byteDigitsAux : Nat → Nat → List Int
  | 0, _ => []
  | fuel + 1, value =>
    if value = 0 then [] else tritOfRem (value % 3) :: byteDigitsAux fuel (value / 3)

/-- The trits contributed by one byte before padding. -/
def byteDigits (value : Nat) : List Int := byteDigitsAux value value

/-- `text_to_trits` (tetragram_commands.rs:1062-1089): for each byte of the
text, push its base-3 digits as trits least-significant first, then pad the
*global* trit vector with zero-trits until its length is a multiple of 4
(`while trits.len() % 4 != 0 { trits.push(0) }`). -/
def text_to_trits (bytes : List Nat) : List Int :=
  bytes.foldl (fun trits byte =>
    let trits2 := trits ++ byteDigits byte
    trits2 ++ List.replicate ((4 - trits2.length % 4) % 4) 0) []

/-- The trit-to-value mapping of `trits_to_text`: `-1 => 2, 0 => 0, 1 => 1`
(any other value panics in the source and cannot arise from the decoder). -/
def tritVal (t : Int) : Nat := if t = -1 then 2 else if t = 1 then 1 else 0

/-- The grouping loop of `trits_to_text`: accumulate
`current_byte = current_byte * 3 + value`, pushing a byte after every 4th
trit; a trailing group of fewer than 4 trits is never pushed.  `% 256`
mirrors the `as u8` cast (the accumulated value is at most 80). -/
def tritsToBytes : List Int → Nat → Nat → List Nat
  | [], _, _ => []
  | t :: rest, current_byte, trit_count =>
    let value := tritVal t
    let current_byte2 := current_byte * 3 + value
    if trit_count + 1 = 4 then current_byte2 % 256 :: tritsToBytes rest 0 0
    else tritsToBytes rest current_byte2 (trit_count + 1)

/-- The bytes of the fallback string "Invalid UTF-8" returned by
`trits_to_text` when `String::from_utf8` fails. -/
def INVALID_UTF8 : List Nat := [73, 110, 118, 97, 108, 105, 100, 32, 85, 84, 70, 45, 56]

/-- A UTF-8 continuation byte, `0x80..=0xBF`. -/
def isCont (b : Nat) : Bool := 0x80 ≤ b && b ≤ 0xBF

/-- Rust `String::from_utf8` validation: standard UTF-8 well-formedness
(shortest form, no surrogates, maximum U+10FFFF). -/
def utf8Valid : List Nat → Bool
  | [] => true
  | b :: rest =>
    if b ≤ 0x7F then utf8Valid rest
    else if 0xC2 ≤ b && b ≤ 0xDF then
      match rest with
      | c1 :: r => isCont c1 && utf8Valid r
      | [] => false
    else if b = 0xE0 then
      match rest with
      | c1 :: c2 :: r => (0xA0 ≤ c1 && c1 ≤ 0xBF) && isCont c2 && utf8Valid r
      | _ => false
    else if (0xE1 ≤ b && b ≤ 0xEC) || (0xEE ≤ b && b ≤ 0xEF) then
      match rest with
      | c1 :: c2 :: r => isCont c1 && isCont c2 && utf8Valid r
      | _ => false
    else if b = 0xED then
      match rest with
      | c1 :: c2 :: r => (0x80 ≤ c1 && c1 ≤ 0x9F) && isCont c2 && utf8Valid r
      | _ => false
    else if b = 0xF0 then
      match rest with
      | c1 :: c2 :: c3 :: r => (0x90 ≤ c1 && c1 ≤ 0xBF) && isCont c2 && isCont c3 && utf8Valid r
      | _ => false
    else if 0xF1 ≤ b && b ≤ 0xF3 then
      match rest with
      | c1 :: c2 :: c3 :: r => isCont c1 && isCont c2 && isCont c3 && utf8Valid r
      | _ => false
    else if b = 0xF4 then
      match rest with
      | c1 :: c2 :: c3 :: r => (0x80 ≤ c1 && c1 ≤ 0x8F) && isCont c2 && isCont c3 && utf8Valid r
      | _ => false
    else false

/-- `trits_to_text` (tetragram_commands.rs:1092-1116): group the trits into
bytes (the first trit of each group ends up most significant, because the
source accumulates `current_byte * 3 + value`), then
`String::from_utf8(bytes).unwrap_or_else(|_| "Invalid UTF-8".to_string())`. -/
def trits_to_text (trits : List Int) : List Nat :=
  let bytes := tritsToBytes trits 0 0
  if utf8Valid bytes then bytes else INVALID_UTF8

/-- `encode_trits_to_tetragrams_direct` (tetragram_commands.rs:1016-1037):
`-1 => GLYPH_BASE + 0, 0 => GLYPH_BASE + 27, 1 => GLYPH_BASE + 54`
(any other trit value panics in the source and never arises here). -/
def encode_trits_to_tetragrams_direct (trits : List Int) : List Nat :=
  trits.map (fun t =>
    if t = -1 then GLYPH_BASE else if t = 0 then GLYPH_BASE + 27 else GLYPH_BASE + 54)

/-- `decode_tetragrams_to_trits_direct` (tetragram_commands.rs:1040-1059):
characters inside the glyph range map to a trit by thirds of the range;
characters outside the range are silently skipped. -/
def decode_tetragrams_to_trits_direct (tetragrams : List Nat) : List Int :=
  tetragrams.filterMap (fun code =>
    if GLYPH_BASE ≤ code && code ≤ GLYPH_BASE + 80 then
      some (if code - GLYPH_BASE ≤ 26 then (-1 : Int)
            else if code - GLYPH_BASE ≤ 53 then 0 else 1)
    else none)

/-- `encode_text_to_tetragrams_direct` (tetragram_commands.rs:1119-1142):
the glyph stream written for the input text (given as its UTF-8 bytes). -/
def encode_text_to_tetragrams_direct (input : List Nat) : List Nat :=
  encode_trits_to_tetragrams_direct (text_to_trits input)

/-- `decode_tetragrams_to_text_direct` (tetragram_commands.rs:1145-1155):
decode glyphs to trits, then trits to text; the source never returns `Err`. -/
def decode_tetragrams_to_text_direct (input : List Nat) : Except DecodeError (List Nat) :=
  .ok (trits_to_text (decode_tetragrams_to_trits_direct input))

/-! ### Direct codec lemmas and claims -/

theorem tritsToBytes_length : ∀ (l : List Int) (cur cnt : Nat), cnt ≤ 3 →
    (tritsToBytes l cur cnt).length = (cnt + l.length) / 4 := by
  intro l
  induction l with
  | nil =>
    intro cur cnt h
    simp only [tritsToBytes, List.length_nil]
    omega
  | cons t rest ih =>
    intro cur cnt h
    by_cases h4 : cnt + 1 = 4
    · simp only [tritsToBytes, if_pos h4, List.length_cons, ih 0 0 (by omega)]
      omega
    · simp only [tritsToBytes, if_neg h4, List.length_cons,
        ih (cur * 3 + tritVal t) (cnt + 1) (by omega)]
      omega

/-- C2: the claimed Direct-codec round trip fails at the text "\x01"
(single byte 1, which pads to exactly one 4-trit group): the decoder
reconstructs byte 27 because it weights the first trit of the group as most
significant while the encoder emitted it as least significant. -/
theorem direct_roundtrip_failure :
    decode_tetragrams_to_text_direct (encode_text_to_tetragrams_direct [1]) =
      .ok [27] ∧ (27 : Nat) ≠ 1 := by
  exact ⟨by decide, by decide⟩

/-- C5 counterexample: a one-symbol stream — a symbol count that is not a
multiple of 4 — decodes successfully to the empty text instead of failing
with a `MalformedTritStream` error. -/
theorem decode_direct_no_malformed_error :
    decode_tetragrams_to_text_direct [GLYPH_BASE] = .ok [] := by decide

/-- C5 (amended): the direct decoder never fails: it returns `Ok` text for
every input.  A symbol count that is not a multiple of 4 silently drops the
trailing incomplete group (the pre-UTF-8 byte count is ⌊trit count / 4⌋),
and bytes that are not valid UTF-8 are replaced by the literal text
"Invalid UTF-8" rather than reported as an error. -/
theorem decode_direct_total (input : List Nat) :
    decode_tetragrams_to_text_direct input =
      .ok (trits_to_text (decode_tetragrams_to_trits_direct input)) ∧
    (tritsToBytes (decode_tetragrams_to_trits_direct input) 0 0).length =
      (decode_tetragrams_to_trits_direct input).length / 4 :=
  ⟨rfl, by
    have := tritsToBytes_length (decode_tetragrams_to_trits_direct input) 0 0 (by omega)
    simpa using this⟩

/-- One byte's contribution to `text_to_trits` when the running trit vector
is 4-aligned (which it always is at byte boundaries): the byte's base-3
digits padded with zero-trits to the next multiple of 4. -/
def byteTrits (b : Nat) : List Int :=
  byteDigits b ++ List.replicate ((4 - (byteDigits b).length % 4) % 4) 0

theorem text_to_trits_foldl : ∀ (bytes : List Nat) (acc : List Int), acc.length % 4 = 0 →
    bytes.foldl (fun trits byte =>
      let trits2 := trits ++ byteDigits byte
      trits2 ++ List.replicate ((4 - trits2.length % 4) % 4) 0) acc =
    acc ++ (bytes.map byteTrits).flatten := by
  intro bytes
  induction bytes with
  | nil => intro acc h; simp
  | cons b rest ih =>
    intro acc h
    have hlen : (4 - (acc ++ byteDigits b).length % 4) % 4 =
        (4 - (byteDigits b).length % 4) % 4 := by
      rw [List.length_append]
      omega
    have happ : (let trits2 := acc ++ byteDigits b
        trits2 ++ List.replicate ((4 - trits2.length % 4) % 4) 0) =
        acc ++ byteTrits b := by
      show ((acc ++ byteDigits b) ++
          List.replicate ((4 - (acc ++ byteDigits b).length % 4) % 4) 0) =
        acc ++ byteTrits b
      rw [hlen, byteTrits, List.append_assoc]
    have halen : (acc ++ byteTrits b).length % 4 = 0 := by
      simp only [List.length_append, byteTrits, List.length_replicate]
      omega
    rw [List.foldl_cons, happ, ih (acc ++ byteTrits b) halen,
      List.map_cons, List.flatten_cons, ← List.append_assoc]

theorem text_to_trits_join (bytes : List Nat) :
    text_to_trits bytes = (bytes.map byteTrits).flatten := by
  rw [text_to_trits, text_to_trits_foldl bytes [] (by simp), List.nil_append]

theorem byteDigitsAux_length (fuel : Nat) : ∀ n : Nat, n ≤ fuel →
    (byteDigitsAux fuel n).length = (Nat.digits 3 n).length := by
  induction fuel with
  | zero => intro n h; interval_cases n; simp [byteDigitsAux]
  | succ f ih =>
    intro n h
    by_cases h0 : n = 0
    · subst h0; simp [byteDigitsAux]
    · rw [byteDigitsAux, if_neg h0,
        Nat.digits_def' (by norm_num : 1 < 3) (Nat.pos_of_ne_zero h0)]
      simp only [List.length_cons]
      rw [ih (n / 3) (by
        have := Nat.div_lt_self (Nat.pos_of_ne_zero h0) (by norm_num : 1 < 3)
        omega)]

theorem byteDigits_length (n : Nat) :
    (byteDigits n).length = (Nat.digits 3 n).length :=
  byteDigitsAux_length n n le_rfl

theorem byteDigits_length_small (b : Nat) (h1 : 1 ≤ b) (h2 : b ≤ 80) :
    1 ≤ (byteDigits b).length ∧ (byteDigits b).length ≤ 4 := by
  rw [byteDigits_length]
  constructor
  · have : Nat.digits 3 b ≠ [] := Nat.digits_ne_nil_iff_ne_zero.mpr (by omega)
    cases hd : Nat.digits 3 b with
    | nil => exact absurd hd this
    | cons x xs => simp
  · have hlog : Nat.log 3 b < 4 :=
      (Nat.lt_pow_iff_log_lt (by norm_num) (by omega)).mp (by omega)
    rw [Nat.digits_len 3 b (by norm_num) (by omega)]
    omega

theorem byteDigits_length_large (b : Nat) (h1 : 81 ≤ b) (h2 : b < 256) :
    5 ≤ (byteDigits b).length ∧ (byteDigits b).length ≤ 6 := by
  rw [byteDigits_length, Nat.digits_len 3 b (by norm_num) (by omega)]
  have hlow : ¬ (b < 3 ^ 4) := by norm_num; omega
  have hup : Nat.log 3 b < 6 :=
    (Nat.lt_pow_iff_log_lt (by norm_num) (by omega)).mp (by norm_num; omega)
  have hge : 4 ≤ Nat.log 3 b := by
    by_contra hlt
    exact hlow ((Nat.lt_pow_iff_log_lt (by norm_num) (by omega)).mpr (by omega))
  omega

theorem byteTrits_length_zero : byteTrits 0 = [] := rfl

theorem byteTrits_length_small (b : Nat) (h1 : 1 ≤ b) (h2 : b ≤ 80) :
    (byteTrits b).length = 4 := by
  obtain ⟨ha, hb⟩ := byteDigits_length_small b h1 h2
  simp only [byteTrits, List.length_append, List.length_replicate]
  omega

theorem byteTrits_length_large (b : Nat) (h1 : 81 ≤ b) (h2 : b < 256) :
    (byteTrits b).length = 8 := by
  obtain ⟨ha, hb⟩ := byteDigits_length_large b h1 h2
  simp only [byteTrits, List.length_append, List.length_replicate]
  omega

theorem join_byteTrits_length : ∀ (bytes : List Nat), (∀ b ∈ bytes, b < 256) →
    ((bytes.map byteTrits).flatten).length =
      4 * (bytes.filter (fun b => 1 ≤ b && b ≤ 80)).length +
      8 * (bytes.filter (fun b => 81 ≤ b)).length := by
  intro bytes
  induction bytes with
  | nil => intro _; simp
  | cons b rest ih =>
    intro h
    have hb := h b (List.mem_cons_self b rest)
    have ihr := ih (fun x hx => h x (List.mem_cons_of_mem b hx))
    simp only [List.map_cons, List.flatten_cons, List.length_append, List.filter_cons]
    rcases Nat.lt_or_ge b 1 with h0 | h1
    · have hb0 : b = 0 := by omega
      subst hb0
      rw [byteTrits_length_zero,
        if_neg (by simp only [Bool.and_eq_true, decide_eq_true_eq]; omega),
        if_neg (by simp only [decide_eq_true_eq]; omega)]
      simpa using ihr
    · rcases Nat.lt_or_ge b 81 with hs | hl
      · rw [byteTrits_length_small b h1 (by omega),
          if_pos (by simp only [Bool.and_eq_true, decide_eq_true_eq]; omega),
          if_neg (by simp only [decide_eq_true_eq]; omega)]
        simp only [List.length_cons]
        omega
      · rw [byteTrits_length_large b hl hb,
          if_neg (by simp only [Bool.and_eq_true, decide_eq_true_eq]; omega),
          if_pos (by simp only [decide_eq_true_eq]; omega)]
        simp only [List.length_cons]
        omega

/-- C6 (amended): `text_to_trits` emits, per byte, the byte's minimal
base-3 digit expansion padded with zero-trits to the next multiple of 4 of
the global stream — exactly 4 trits only for byte values 1..80; a zero byte
contributes no trits at all and a byte ≥ 81 contributes 8; hence the output
length is `4·#{bytes in 1..80} + 8·#{bytes ≥ 81}`, not `4·(byte count)`. -/
theorem text_to_trits_length (bytes : List Nat) (h : ∀ b ∈ bytes, b < 256) :
    text_to_trits bytes = (bytes.map byteTrits).flatten ∧
    (text_to_trits bytes).length =
      4 * (bytes.filter (fun b => 1 ≤ b && b ≤ 80)).length +
      8 * (bytes.filter (fun b => 81 ≤ b)).length := by
  refine ⟨text_to_trits_join bytes, ?_⟩
  rw [text_to_trits_join bytes]
  exact join_byteTrits_length bytes h

/-- Witness for `text_to_trits_length` at the text bytes `[0, 1, 81]`
(where the trit counts are 0, 4 and 8). -/
theorem text_to_trits_length_witness :
    (∀ b ∈ ([0, 1, 81] : List Nat), b < 256) ∧
    (text_to_trits [0, 1, 81]).length =
      4 * (([0, 1, 81] : List Nat).filter (fun b => 1 ≤ b && b ≤ 80)).length +
      8 * (([0, 1, 81] : List Nat).filter (fun b => 81 ≤ b)).length :=
  ⟨by decide, (text_to_trits_length [0, 1, 81] (by decide)).2⟩

/-- C6 counterexample: the single-byte text "Q" (byte 81) is encoded as 8
trits — and hence 8 symbols — not 4; a zero byte yields 0 trits, not 4. -/
theorem text_to_trits_not_four_per_byte :
    (text_to_trits [81]).length = 8 ∧ (text_to_trits [0]).length = 0 := by
  exact ⟨by decide, by decide⟩

/-! ### Gas estimator (src/cli/src/commands/gas_estimate.rs) -/

/-- The external `trinaryvm_runtime` collaborators that
`GasEstimator::estimate_contract` calls, modelled per spec §6 as a record of
pure functions: `Opcode::from_byte` (Ok/Err as `Option`),
`GasMeter::get_opcode_cost`, `GasMeter::is_homomorphic_op`,
`GasMeter::calculate_homomorphic_gas`, `GasMeter::calculate_intrinsic_gas`
and `GasTier::from_gas_limit`.  Gas values (`u64` in the source) are `Nat`. -/
structure Externals (Op T : Type) where
  fromByte : Nat → Option Op
  opcodeCost : Op → Nat
  isHomomorphicOp : Op → Bool
  homomorphicGas : Op → Nat → Nat
  intrinsicGas : List Nat → Bool → Nat
  tierFromGasLimit : Nat → T

/-- One entry of the per-opcode breakdown (`OpcodeEstimate` in the source;
the opcode is kept abstract instead of `format!`-ed to a string). -/
structure OpcodeEstimate (Op : Type) where
  opcode : Op
  count : Nat
  total_gas : Nat

/-- `CompressionSavings` of the source; `savings_percent` is an `f64`
computed as `(savings / original) * 100.0`, modelled as a rational. -/
structure CompressionSavings where
  original_gas : Nat
  compressed_gas : Nat
  savings : Nat
  savings_percent : ℚ

/-- `GasEstimate` of the source (the tier is kept abstract instead of
`format!`-ed to a string). -/
structure GasEstimate (Op T : Type) where
  total_gas : Nat
  recommended_tier : T
  intrinsic_gas : Nat
  execution_gas : Nat
  homomorphic_gas : Nat
  opcode_breakdown : List (OpcodeEstimate Op)
  compression_savings : Option CompressionSavings

/-- The mutable state of the bytecode scan loop in `estimate_contract`. -/
structure ScanState (Op : Type) where
  execution_gas : Nat
  homomorphic_gas : Nat
  opcode_counts : List (Op × Nat)

/-- `*opcode_counts.entry(opcode).or_insert(0) += 1`; the `HashMap` is
modelled as an association list in first-insertion order. -/
def bumpCount {Op : Type} [DecidableEq Op] (counts : List (Op × Nat)) (op : Op) :
    List (Op × Nat) :=
  if counts.any (fun p => p.1 = op) then
    counts.map (fun p => if p.1 = op then (p.1, p.2 + 1) else p)
  else counts ++ [(op, 1)]

/-- One iteration of the scan loop of `estimate_contract`: a recognized
opcode adds its homomorphic gas (at the default data size 2187) to both
execution and homomorphic gas, or its base cost to execution gas only, and
bumps the tally; an unrecognized byte is skipped. -/
def scanStep {Op T : Type} [DecidableEq Op] (E : Externals Op T) (s : ScanState Op)
    (byte : Nat) : ScanState Op :=
  match E.fromByte byte with
  | some opcode =>
    if E.isHomomorphicOp opcode then
      let he_gas := E.homomorphicGas opcode 2187
      { execution_gas := s.execution_gas + he_gas,
        homomorphic_gas := s.homomorphic_gas + he_gas,
        opcode_counts := bumpCount s.opcode_counts opcode }
    else
      { s with execution_gas := s.execution_gas + E.opcodeCost opcode,
               opcode_counts := bumpCount s.opcode_counts opcode }
  | none => s

/-- `GasEstimator::estimate_contract` (gas_estimate.rs:64-147). -/
def estimate_contract {Op T : Type} [DecidableEq Op] (E : Externals Op T)
    (bytecode : List Nat) (is_tetragram_compressed : Bool) : GasEstimate Op T :=
  let intrinsic_gas := E.intrinsicGas bytecode is_tetragram_compressed
  let s := bytecode.foldl (scanStep E) ⟨0, 0, []⟩
  let opcode_breakdown := s.opcode_counts.map (fun p =>
    let gas := if E.isHomomorphicOp p.1 then E.homomorphicGas p.1 2187 else E.opcodeCost p.1
    ⟨p.1, p.2, gas * p.2⟩)
  let compression_savings :=
    if is_tetragram_compressed then
      let original_gas := E.intrinsicGas bytecode false
      let compressed_gas := intrinsic_gas
      let savings := original_gas - compressed_gas
      some { original_gas := original_gas, compressed_gas := compressed_gas,
             savings := savings,
             savings_percent :=
               if original_gas > 0 then ((savings : ℚ) / (original_gas : ℚ)) * 100 else 0 }
    else none
  let total_gas := intrinsic_gas + s.execution_gas
  { total_gas := total_gas,
    recommended_tier := E.tierFromGasLimit total_gas,
    intrinsic_gas := intrinsic_gas,
    execution_gas := s.execution_gas,
    homomorphic_gas := s.homomorphic_gas,
    opcode_breakdown := opcode_breakdown,
    compression_savings := compression_savings }

theorem scanStep_exec_le {Op T : Type} [DecidableEq Op] (E : Externals Op T)
    (s : ScanState Op) (y : Nat) :
    s.execution_gas ≤ (scanStep E s y).execution_gas := by
  cases hfb : E.fromByte y with
  | none => simp [scanStep, hfb]
  | some opcode =>
    by_cases hh : E.isHomomorphicOp opcode <;>
      simp [scanStep, hfb, hh, Nat.le_add_right]

/-- C8 (amended): appending a recognized opcode byte never decreases the
execution-gas component; the total gas is also non-decreasing provided the
external intrinsic-cost function does not decrease when the byte is
appended (with only purity and non-negativity of the externals this extra
assumption is necessary — see the counterexample). -/
theorem estimate_gas_monotone {Op T : Type} [DecidableEq Op] (E : Externals Op T)
    (b : List Nat) (x : Nat) (c : Bool)
    (_hx : (E.fromByte x).isSome = true)
    (hintr : E.intrinsicGas b c ≤ E.intrinsicGas (b ++ [x]) c) :
    (estimate_contract E b c).execution_gas ≤
      (estimate_contract E (b ++ [x]) c).execution_gas ∧
    (estimate_contract E b c).total_gas ≤
      (estimate_contract E (b ++ [x]) c).total_gas := by
  have hfold : (b ++ [x]).foldl (scanStep E) (⟨0, 0, []⟩ : ScanState Op) =
      scanStep E (b.foldl (scanStep E) ⟨0, 0, []⟩) x := by
    rw [List.foldl_append]
    rfl
  have hle := scanStep_exec_le E (b.foldl (scanStep E) (⟨0, 0, []⟩ : ScanState Op)) x
  have hexec : ∀ bc : List Nat, (estimate_contract E bc c).execution_gas =
      (bc.foldl (scanStep E) (⟨0, 0, []⟩ : ScanState Op)).execution_gas := fun _ => rfl
  have htot : ∀ bc : List Nat, (estimate_contract E bc c).total_gas =
      E.intrinsicGas bc c +
        (bc.foldl (scanStep E) (⟨0, 0, []⟩ : ScanState Op)).execution_gas := fun _ => rfl
  constructor
  · rw [hexec, hexec, hfold]
    exact hle
  · rw [htot, htot, hfold]
    exact Nat.add_le_add hintr hle

/-- A concrete external-collaborator instance for witnesses: every byte is
the opcode `0`, base cost 7, nothing homomorphic, intrinsic cost
`10 · bytecode length`. -/
def E0 : Externals Nat Nat where
  fromByte := fun _ => some 0
  opcodeCost := fun _ => 7
  isHomomorphicOp := fun _ => false
  homomorphicGas := fun _ _ => 0
  intrinsicGas := fun bc _ => 10 * bc.length
  tierFromGasLimit := fun g => g

/-- Witness for `estimate_gas_monotone`: appending opcode byte 5 to `[3]`
under `E0`. -/
theorem estimate_gas_monotone_witness :
    (E0.fromByte 5).isSome = true ∧
    E0.intrinsicGas [3] false ≤ E0.intrinsicGas ([3] ++ [5]) false ∧
    (estimate_contract E0 [3] false).total_gas ≤
      (estimate_contract E0 ([3] ++ [5]) false).total_gas :=
  ⟨by decide, by decide, (estimate_gas_monotone E0 [3] 5 false (by decide) (by decide)).2⟩

/-- A pure, non-negative intrinsic-cost function under which appending a
recognized opcode byte strictly decreases the total gas: the cost is 5 on
the empty bytecode and 0 otherwise. -/
def E1 : Externals Nat Nat where
  fromByte := fun _ => some 0
  opcodeCost := fun _ => 0
  isHomomorphicOp := fun _ => false
  homomorphicGas := fun _ _ => 0
  intrinsicGas := fun bc _ => if bc.length = 0 then 5 else 0
  tierFromGasLimit := fun g => g

/-- C8 counterexample: with only purity and non-negativity assumed of the
external cost functions, appending the recognized opcode byte 7 to the
empty bytecode strictly decreases `total_gas` under `E1`. -/
theorem estimate_total_gas_not_monotone :
    (E1.fromByte 7).isSome = true ∧
    (estimate_contract E1 ([] ++ [7]) false).total_gas <
      (estimate_contract E1 [] false).total_gas :=
  ⟨by decide, by decide⟩

/-- C9: with the compression flag set, the estimate always carries a
savings record whose fields are the two intrinsic costs, whose `savings` is
their saturating difference — hence non-negative and at most the original —
and whose `savings_percent` is 0 whenever the uncompressed-equivalent
intrinsic cost is 0. -/
theorem compression_savings_nonneg {Op T : Type} [DecidableEq Op] (E : Externals Op T)
    (bytecode : List Nat) :
    ∃ s : CompressionSavings,
      (estimate_contract E bytecode true).compression_savings = some s ∧
      s.original_gas = E.intrinsicGas bytecode false ∧
      s.compressed_gas = E.intrinsicGas bytecode true ∧
      s.savings = s.original_gas - s.compressed_gas ∧
      0 ≤ s.savings ∧ s.savings ≤ s.original_gas ∧
      (s.original_gas = 0 → s.savings_percent = 0) := by
  refine ⟨_, rfl, rfl, rfl, rfl, Nat.zero_le _, Nat.sub_le _ _, ?_⟩
  intro h0
  have h0' : E.intrinsicGas bytecode false = 0 := h0
  show (if E.intrinsicGas bytecode false > 0 then
      ((E.intrinsicGas bytecode false - E.intrinsicGas bytecode true : Nat) : ℚ) /
        (E.intrinsicGas bytecode false : ℚ) * 100 else 0) = 0
  simp [h0']

/-- Witness for `compression_savings_nonneg` at `E0` and bytecode `[3]`. -/
theorem compression_savings_nonneg_witness :
    ∃ s : CompressionSavings,
      (estimate_contract E0 [3] true).compression_savings = some s ∧
      s.original_gas = E0.intrinsicGas [3] false ∧
      s.compressed_gas = E0.intrinsicGas [3] true ∧
      s.savings = s.original_gas - s.compressed_gas ∧
      0 ≤ s.savings ∧ s.savings ≤ s.original_gas ∧
      (s.original_gas = 0 → s.savings_percent = 0) :=
  compression_savings_nonneg E0 [3]
